import Mathlib

/-!
Verification of the wagmi hardhat-deploy plugin (src/index.ts).

The plugin reads a directory of hardhat-deploy export files (one JSON document
per network), filters files by network name and contracts by name, merges the
addresses of the same contract across chains, and collapses the per-chain
address map to a single scalar when every chain has the same address.

Shallow embedding conventions:
- A JavaScript RegExp is modelled by its test method, a function String to Bool.
- A JSON object is modelled by its property table: a list of key-value pairs
  with distinct keys, in property creation order.  Enumeration primitives
  (Object.entries, Object.values) follow the ECMAScript ordinary own property
  key order: array-index keys first in ascending numeric order, then the
  remaining string keys in insertion order; this is implemented by jsEntries.
- The file system is a list of (file name, file content) pairs in
  directory-listing order; a content of none models a file whose text
  JSON.parse rejects (the thrown exception aborts the whole operation, which
  the model renders as an Option-valued result).
- Number.parseInt returns NaN on a string with no leading numeral; NaN is
  modelled as none in Option Int.  (parseInt actually returns a double; the
  exact-Int model only deviates for magnitudes at or beyond 2 to the 53rd,
  far outside any chain id.)
-/

namespace HardhatDeploy

/-- A pattern matcher over contract names; models a JavaScript RegExp via its
test method. -/
abbrev Pattern := String → Bool

/-- One entry of the contracts object of a hardhat-deploy export file. -/
structure ContractExport where
  address : String
  abi : String
  linkedData : Option String := none
deriving DecidableEq, Repr

/-- A parsed hardhat-deploy export file. -/
structure Export where
  chainId : String
  name : String
  contracts : List (String × ContractExport)
deriving DecidableEq, Repr

/-- The plugin configuration.  The fields prefixName and suffixName model the
namePrefix and nameSuffix options of the source. -/
structure HardhatDeployOptions where
  directory : String
  includes : Option (List Pattern) := none
  excludes : Option (List Pattern) := none
  includeNetworks : Option (List String) := none
  excludeNetworks : Option (List String) := none
  prefixName : Option String := none
  suffixName : Option String := none

/-- Name-level selector, mirroring shouldInclude of the source.  A JavaScript
truthiness test on an optional array is a match on the Option: an empty array
is truthy, so a present-but-empty list enters the branch. -/
def shouldInclude (name : String) (config : HardhatDeployOptions) : Bool :=
  if (match config.excludes with
      | some excludes => excludes.any fun exclude => exclude name
      | none => false) then
    false
  else
    match config.includes with
    | some includes => includes.any fun pat => pat name
    | none => true

/-- The segment of a character list after the last path separator. -/
def afterLastSep (cs : List Char) : List Char :=
  (cs.reverse.takeWhile fun c => c ≠ '/').reverse

/-- Model of Node path.basename(p, ext): the base name of p, with ext removed
when it is a proper suffix of the base name (trailing-separator trimming is
omitted; directory-listing entries contain no separator). -/
def pathBasename (p : String) (ext : String) : String :=
  let base : List Char := afterLastSep p.data
  let suf : List Char := ext.data
  if base ≠ suf ∧ suf.isSuffixOf base then
    String.mk (base.take (base.length - suf.length))
  else
    String.mk base

/-- File-level selector, mirroring shouldIncludeFile of the source.  The
JavaScript guard (xs && xs.length > 0) is rendered as (xs.getD []).length > 0,
which agrees on absent, empty and non-empty lists. -/
def shouldIncludeFile (fileName : String) (config : HardhatDeployOptions) : Bool :=
  let networkName := pathBasename fileName ".json"
  if (config.includeNetworks.getD []).length > 0 &&
      !((config.includeNetworks.getD []).contains networkName) then
    false
  else if (config.excludeNetworks.getD []).length > 0 &&
      ((config.excludeNetworks.getD []).contains networkName) then
    false
  else
    true

/-- The JavaScript white-space characters skipped by parseInt (the common
ones; the remaining Unicode space separators never occur in a chainId). -/
def jsWhitespace (c : Char) : Bool :=
  c = ' ' || c = '\t' || c = '\n' || c = '\r' ||
  c = Char.ofNat 0x0B || c = Char.ofNat 0x0C || c = Char.ofNat 0xA0 ||
  c = Char.ofNat 0x2028 || c = Char.ofNat 0x2029 || c = Char.ofNat 0xFEFF

/-- The value of a digit character in the given radix, none when the
character is not a digit of that radix. -/
def digitVal (radix : Nat) (c : Char) : Option Nat :=
  let v : Option Nat :=
    if '0' ≤ c ∧ c ≤ '9' then some (c.toNat - '0'.toNat)
    else if 'a' ≤ c ∧ c ≤ 'z' then some (c.toNat - 'a'.toNat + 10)
    else if 'A' ≤ c ∧ c ≤ 'Z' then some (c.toNat - 'A'.toNat + 10)
    else none
  match v with
  | some n => if n < radix then some n else none
  | none => none

/-- The maximal leading run of digits of the given radix, as digit values. -/
def takeDigits (radix : Nat) : List Char → List Nat
  | [] => []
  | c :: rest =>
    match digitVal radix c with
    | some n => n :: takeDigits radix rest
    | none => []

/-- Parse an unsigned numeral the way parseInt does with no radix argument:
a 0x or 0X prefix selects radix 16, otherwise radix 10; the maximal leading
digit run is taken; none (NaN) when that run is empty. -/
def parseUnsigned (cs : List Char) : Option Nat :=
  let parseRadix : Nat → List Char → Option Nat := fun radix t =>
    let ds := takeDigits radix t
    if ds.isEmpty then none
    else some (ds.foldl (fun acc d => acc * radix + d) 0)
  match cs with
  | '0' :: 'x' :: rest => parseRadix 16 rest
  | '0' :: 'X' :: rest => parseRadix 16 rest
  | _ => parseRadix 10 cs

/-- Model of Number.parseInt(s) with no radix argument; none models NaN. -/
def parseIntJs (s : String) : Option Int :=
  match s.data.dropWhile jsWhitespace with
  | '-' :: rest => (parseUnsigned rest).map fun n => -(n : Int)
  | '+' :: rest => (parseUnsigned rest).map fun n => (n : Int)
  | cs => (parseUnsigned cs).map fun n => (n : Int)

/-- Lookup in a property table. -/
def assocGet {K V : Type} [DecidableEq K] : List (K × V) → K → Option V
  | [], _ => none
  | (k, v) :: rest, k0 => if k = k0 then some v else assocGet rest k0

/-- Property write obj[k] = v: replace in place when the key is present,
append a fresh property otherwise. -/
def assocSet {K V : Type} [DecidableEq K] : List (K × V) → K → V → List (K × V)
  | [], k0, v0 => [(k0, v0)]
  | (k, v) :: rest, k0, v0 =>
    if k = k0 then (k0, v0) :: rest else (k, v) :: assocSet rest k0 v0

/-- The decimal value of a digit string (used for array-index key ordering). -/
def decValue (cs : List Char) : Nat :=
  cs.foldl (fun acc c => acc * 10 + (c.toNat - '0'.toNat)) 0

/-- Whether a string is an ECMAScript array-index property key: the canonical
decimal numeral of an integer below 2 to the 32nd minus one. -/
def isArrayIndexKey (s : String) : Bool :=
  let cs := s.data
  (!cs.isEmpty) && cs.all Char.isDigit &&
    (s == "0" || !(cs.head? == some '0')) &&
    decide (decValue cs < 2 ^ 32 - 1)

/-- Insert a pair into a list sorted by the numeric value of the key. -/
def insertByKey {α : Type} (x : String × α) : List (String × α) → List (String × α)
  | [] => [x]
  | y :: rest =>
    if decValue x.1.data ≤ decValue y.1.data then x :: y :: rest
    else y :: insertByKey x rest

/-- Sort a pair list by the numeric value of the key (insertion sort). -/
def sortByKeyNat {α : Type} : List (String × α) → List (String × α)
  | [] => []
  | x :: rest => insertByKey x (sortByKeyNat rest)

/-- ECMAScript ordinary own property key enumeration of a property table:
array-index keys first in ascending numeric order, then the remaining keys in
insertion order.  This is the order of Object.entries and Object.values. -/
def jsEntries {α : Type} (m : List (String × α)) : List (String × α) :=
  sortByKeyNat (m.filter fun kv => isArrayIndexKey kv.1) ++
    m.filter fun kv => !isArrayIndexKey kv.1

/-- Object.values of a property table. -/
def jsVals {α : Type} (m : List (String × α)) : List α :=
  (jsEntries m).map Prod.snd

/-- One entry of the accumulation map during the fold: display name, the ABI
fixed at entry creation, and the chain-id-to-address property table.  The
address keys are the parseInt results; none is the NaN key. -/
structure AccContract where
  name : String
  abi : String
  addressMap : List (Option Int × String)
deriving DecidableEq, Repr

/-- The address field of an output entry: either a single scalar address or
the chain-id-to-address table. -/
inductive AddressRep where
  | scalar (a : String)
  | map (m : List (Option Int × String))
deriving DecidableEq, Repr

/-- One entry of the final registry (the wagmi ContractConfig shape that the
plugin populates). -/
structure ContractConfig where
  name : String
  abi : String
  address : AddressRep
deriving DecidableEq, Repr

/-- One accumulation step of the fold, fully applied: the transformed key,
the chain id of the current file, and the ABI and address of the record. -/
structure FoldEvent where
  key : String
  chainId : Option Int
  abi : String
  address : String
deriving DecidableEq, Repr

/-- Record the address of an event under its chain id (addresses[chainId] =
address in the source). -/
def applyAddr (contract : AccContract) (e : FoldEvent) : AccContract :=
  { contract with addressMap := assocSet contract.addressMap e.chainId e.address }

/-- The loop body of the fold for one selected contract record: fetch the
existing entry or create one with the ABI of this record and an empty address
map, record the address under the chain id, and store the entry back. -/
def applyEvent (acc : List (String × AccContract)) (e : FoldEvent) :
    List (String × AccContract) :=
  let contract := (assocGet acc e.key).getD
    { name := e.key, abi := e.abi, addressMap := [] }
  assocSet acc e.key (applyAddr contract e)

/-- The transformed output key: configured name pieces around the raw name. -/
def contractKey (config : HardhatDeployOptions) (name : String) : String :=
  (config.prefixName.getD "") ++ name ++ (config.suffixName.getD "")

/-- Process one (name, record) pair of a file: skip it when the name-level
selector rejects it, otherwise fold it in. -/
def foldContract (config : HardhatDeployOptions) (chainId : Option Int)
    (acc : List (String × AccContract)) (entry : String × ContractExport) :
    List (String × AccContract) :=
  if shouldInclude entry.1 config then
    applyEvent acc
      { key := contractKey config entry.1, chainId := chainId,
        abi := entry.2.abi, address := entry.2.address }
  else acc

/-- Fold one parsed file into the accumulation map, iterating the contracts
object in Object.entries order. -/
def foldFile (config : HardhatDeployOptions) (acc : List (String × AccContract))
    (dep : Export) : List (String × AccContract) :=
  (jsEntries dep.contracts).foldl (foldContract config (parseIntJs dep.chainId)) acc

/-- Fold the selected files in order; a file whose content JSON.parse rejects
aborts the whole fold (the exception propagates, modelled as none). -/
def foldFiles (config : HardhatDeployOptions) :
    List (String × Option Export) → List (String × AccContract) →
    Option (List (String × AccContract))
  | [], acc => some acc
  | (_, none) :: _, _ => none
  | (_, some dep) :: rest, acc => foldFiles config rest (foldFile config acc dep)

/-- The directory listing filtered by the file-level selector. -/
def selectFiles (config : HardhatDeployOptions)
    (dir : List (String × Option Export)) : List (String × Option Export) :=
  dir.filter fun f => shouldIncludeFile f.1 config

/-- The accumulation phase of the contracts() callback: select files, then
fold each in directory-listing order starting from an empty map. -/
def foldDirectory (config : HardhatDeployOptions)
    (dir : List (String × Option Export)) : Option (List (String × AccContract)) :=
  foldFiles config (selectFiles config dir) []

/-- First-occurrence deduplication of a string list, the order produced by
spreading a JavaScript Set built from the list. -/
def dedupAux : List String → List String → List String
  | [], _ => []
  | a :: rest, seen =>
    if seen.contains a then dedupAux rest seen
    else a :: dedupAux rest (a :: seen)

/-- Spread of new Set(addresses): distinct values in first-occurrence order. -/
def dedupJs (l : List String) : List String :=
  dedupAux l []

/-- The simplify step for one aggregate entry: when exactly one distinct
address value occurs in the address map, the address field becomes that
scalar, otherwise the map is kept.  The values are deduplicated by a Set; the
enumeration order of the map (ascending numeric keys in JavaScript, insertion
order here) affects neither the count of distinct values nor the sole value
in the singleton case, which are all the branch inspects. -/
def simplifyEntry (c : AccContract) : ContractConfig :=
  { name := c.name, abi := c.abi,
    address :=
      match dedupJs (c.addressMap.map Prod.snd) with
      | [a] => AddressRep.scalar a
      | _ => AddressRep.map c.addressMap }

/-- The contracts() callback of the plugin: fold the selected files of the
directory, then return Object.values of the accumulation map with every entry
simplified.  none models the thrown parse exception. -/
def pluginContracts (config : HardhatDeployOptions)
    (dir : List (String × Option Export)) : Option (List ContractConfig) :=
  (foldDirectory config dir).map fun contracts => (jsVals contracts).map simplifyEntry

/-- The event of one (name, record) pair, none when the selector rejects it. -/
def entryEvent (config : HardhatDeployOptions) (chainId : Option Int)
    (entry : String × ContractExport) : Option FoldEvent :=
  if shouldInclude entry.1 config then
    some { key := contractKey config entry.1, chainId := chainId,
           abi := entry.2.abi, address := entry.2.address }
  else none

/-- The accumulation steps contributed by one file, in processing order. -/
def fileEvents (config : HardhatDeployOptions) (dep : Export) : List FoldEvent :=
  (jsEntries dep.contracts).filterMap (entryEvent config (parseIntJs dep.chainId))

/-- The accumulation steps contributed by a file list, in processing order. -/
def filesEvents (config : HardhatDeployOptions) :
    List (String × Option Export) → List FoldEvent
  | [] => []
  | (_, none) :: rest => filesEvents config rest
  | (_, some dep) :: rest => fileEvents config dep ++ filesEvents config rest

/-- All accumulation steps of one invocation, in processing order. -/
def allEvents (config : HardhatDeployOptions)
    (dir : List (String × Option Export)) : List FoldEvent :=
  filesEvents config (selectFiles config dir)

/-- The last element of a list satisfying a predicate. -/
def lastWith {α : Type} (p : α → Bool) : List α → Option α
  | [] => none
  | a :: rest =>
    match lastWith p rest with
    | some b => some b
    | none => if p a then some a else none

/-- Append a key when it is not present yet (the key evolution of a property
write with a fresh key). -/
def insertKey (ks : List String) (k : String) : List String :=
  if k ∈ ks then ks else ks ++ [k]

/-- The keys of the accumulation map in first-insertion order, computed from
the event sequence. -/
def firstEncounter (E : List FoldEvent) : List String :=
  E.foldl (fun ks e => insertKey ks e.key) []

/-- The index of the last dot in a character list. -/
def lastDotIdx : List Char → Option Nat
  | [] => none
  | c :: rest =>
    match lastDotIdx rest with
    | some i => some (i + 1)
    | none => if c = '.' then some 0 else none

/-- Modelled from the spec wording for the network identifier: the base name
of the file with its extension stripped, the extension being the part from
the last dot when that dot is not the leading character of the base name.
Stated only for comparison with the source behavior, which passes the fixed
suffix ".json" to path.basename. -/
def stripExtension (f : String) : String :=
  let base := afterLastSep f.data
  match lastDotIdx base with
  | some i => if 0 < i then String.mk (base.take i) else String.mk base
  | none => String.mk base

/-- The value stored under a key after a run of accumulation steps, given the
value stored before the run: the first step with a fresh key creates the
entry with the ABI of that step, every step writes its address under its
chain id. -/
def accAfter (k : String) (E : List FoldEvent) (cur : Option AccContract) :
    Option AccContract :=
  match cur, E.filter (fun e => e.key == k) with
  | some entry, ek => some (ek.foldl applyAddr entry)
  | none, [] => none
  | none, e :: ek =>
    some (ek.foldl applyAddr (applyAddr { name := k, abi := e.abi, addressMap := [] } e))

/-!  Helper lemmas about the property-table primitives. -/

theorem assocGet_assocSet_self {K V : Type} [DecidableEq K]
    (m : List (K × V)) (k : K) (v : V) : assocGet (assocSet m k v) k = some v := by
  induction m with
  | nil => simp [assocSet, assocGet]
  | cons kv rest ih =>
    obtain ⟨k1, v1⟩ := kv
    by_cases h : k1 = k
    · simp [assocSet, h, assocGet]
    · simp [assocSet, h, assocGet, ih]

theorem assocGet_assocSet_ne {K V : Type} [DecidableEq K]
    (m : List (K × V)) (k k' : K) (v : V) (h : k ≠ k') :
    assocGet (assocSet m k v) k' = assocGet m k' := by
  induction m with
  | nil => simp [assocSet, assocGet, h]
  | cons kv rest ih =>
    obtain ⟨k1, v1⟩ := kv
    by_cases h1 : k1 = k
    · subst h1
      simp [assocSet, assocGet, h]
    · simp [assocSet, h1, assocGet, ih]

theorem mem_assocSet {K V : Type} [DecidableEq K]
    (m : List (K × V)) (k : K) (v : V) :
    ∀ kv ∈ assocSet m k v, kv ∈ m ∨ kv = (k, v) := by
  induction m with
  | nil => intro kv hkv; simp [assocSet] at hkv; exact Or.inr hkv
  | cons kv1 rest ih =>
    intro kv hkv
    obtain ⟨k1, v1⟩ := kv1
    by_cases h1 : k1 = k
    · simp [assocSet, h1] at hkv
      rcases hkv with h | h
      · exact Or.inr (by simp [h])
      · exact Or.inl (List.mem_cons_of_mem _ h)
    · simp [assocSet, h1] at hkv
      rcases hkv with h | h
      · exact Or.inl (by simp [h])
      · rcases ih kv h with h2 | h2
        · exact Or.inl (List.mem_cons_of_mem _ h2)
        · exact Or.inr h2

theorem assocGet_mem {K V : Type} [DecidableEq K]
    (m : List (K × V)) (k : K) (v : V) (h : assocGet m k = some v) : (k, v) ∈ m := by
  induction m with
  | nil => simp [assocGet] at h
  | cons kv rest ih =>
    obtain ⟨k1, v1⟩ := kv
    by_cases h1 : k1 = k
    · subst h1
      simp [assocGet] at h
      simp [h]
    · simp [assocGet, h1] at h
      exact List.mem_cons_of_mem _ (ih h)

theorem keys_assocSet {V : Type} (m : List (String × V)) (k : String) (v : V) :
    (assocSet m k v).map Prod.fst = insertKey (m.map Prod.fst) k := by
  induction m with
  | nil => simp [assocSet, insertKey]
  | cons kv rest ih =>
    obtain ⟨k1, v1⟩ := kv
    by_cases h1 : k1 = k
    · subst h1
      simp [assocSet, insertKey]
    · have hk1 : ¬k = k1 := fun h => h1 h.symm
      simp only [assocSet, if_neg h1, List.map_cons, ih, insertKey]
      by_cases hk : k ∈ rest.map Prod.fst
      · simp [hk, hk1]
      · simp [hk, hk1]

/-!  The fold over files is the fold over the flattened event sequence. -/

theorem foldl_foldContract_eq (config : HardhatDeployOptions) (c : Option Int) :
    ∀ (l : List (String × ContractExport)) (acc : List (String × AccContract)),
      l.foldl (foldContract config c) acc =
        (l.filterMap (entryEvent config c)).foldl applyEvent acc := by
  intro l
  induction l with
  | nil => intro acc; rfl
  | cons x rest ih =>
    intro acc
    by_cases h : shouldInclude x.1 config
    · simp only [List.foldl_cons, List.filterMap_cons, entryEvent, h, if_pos,
        foldContract, ite_true]
      exact ih _
    · simp only [List.foldl_cons, List.filterMap_cons, entryEvent, h, if_neg,
        foldContract, ite_false]
      exact ih _

theorem foldFile_eq (config : HardhatDeployOptions)
    (acc : List (String × AccContract)) (dep : Export) :
    foldFile config acc dep = (fileEvents config dep).foldl applyEvent acc :=
  foldl_foldContract_eq config (parseIntJs dep.chainId) (jsEntries dep.contracts) acc

theorem foldFiles_eq_some (config : HardhatDeployOptions) :
    ∀ (files : List (String × Option Export)) (acc res : List (String × AccContract)),
      foldFiles config files acc = some res →
      res = (filesEvents config files).foldl applyEvent acc := by
  intro files
  induction files with
  | nil =>
    intro acc res h
    simp only [foldFiles, Option.some.injEq] at h
    simp [filesEvents, ← h]
  | cons g rest ih =>
    intro acc res h
    obtain ⟨n, c⟩ := g
    cases c with
    | none => simp [foldFiles] at h
    | some dep =>
      simp only [foldFiles] at h
      rw [ih _ _ h, foldFile_eq]
      simp [filesEvents, List.foldl_append]

/-!  Characterization of a lookup in the accumulation map after a fold. -/

theorem assocGet_eventsFold (k : String) :
    ∀ (E : List FoldEvent) (acc : List (String × AccContract)),
      assocGet (E.foldl applyEvent acc) k = accAfter k E (assocGet acc k) := by
  intro E
  induction E with
  | nil =>
    intro acc
    cases h : assocGet acc k <;> simp [accAfter, h]
  | cons e E ih =>
    intro acc
    rw [List.foldl_cons, ih]
    by_cases hk : e.key = k
    · subst hk
      have hset : assocGet (applyEvent acc e) e.key =
          some (applyAddr ((assocGet acc e.key).getD
            { name := e.key, abi := e.abi, addressMap := [] }) e) := by
        unfold applyEvent
        exact assocGet_assocSet_self _ _ _
      rw [hset]
      cases hacc : assocGet acc e.key with
      | some entry => simp [accAfter, hacc, List.filter_cons]
      | none => simp [accAfter, hacc, List.filter_cons]
    · have hset : assocGet (applyEvent acc e) k = assocGet acc k := by
        unfold applyEvent
        exact assocGet_assocSet_ne _ _ _ _ hk
      rw [hset]
      have hbeq : (e.key == k) = false := by simp [hk]
      cases hacc : assocGet acc k with
      | some entry => simp [accAfter, hacc, List.filter_cons, hbeq]
      | none => simp [accAfter, hacc, List.filter_cons, hbeq]

/-!  Behavior of a run of address writes on one entry. -/

theorem foldl_applyAddr_name : ∀ (ek : List FoldEvent) (entry : AccContract),
    (ek.foldl applyAddr entry).name = entry.name := by
  intro ek
  induction ek with
  | nil => intro entry; rfl
  | cons e ek ih => intro entry; rw [List.foldl_cons, ih]; rfl

theorem foldl_applyAddr_abi : ∀ (ek : List FoldEvent) (entry : AccContract),
    (ek.foldl applyAddr entry).abi = entry.abi := by
  intro ek
  induction ek with
  | nil => intro entry; rfl
  | cons e ek ih => intro entry; rw [List.foldl_cons, ih]; rfl

theorem assocGet_foldl_applyAddr (c : Option Int) :
    ∀ (ek : List FoldEvent) (entry : AccContract),
      assocGet (ek.foldl applyAddr entry).addressMap c =
        match lastWith (fun e => e.chainId == c) ek with
        | some b => some b.address
        | none => assocGet entry.addressMap c := by
  intro ek
  induction ek with
  | nil => intro entry; rfl
  | cons e ek ih =>
    intro entry
    rw [List.foldl_cons, ih]
    cases hl : lastWith (fun x => x.chainId == c) ek with
    | some b => simp [lastWith, hl]
    | none =>
      by_cases hc : e.chainId = c
      · have hbeq : (e.chainId == c) = true := by simp [hc]
        simp only [lastWith, hl, hbeq, if_pos, applyAddr]
        rw [← hc, assocGet_assocSet_self]
      · have hbeq : (e.chainId == c) = false := by simp [hc]
        simp only [lastWith, hl, hbeq, applyAddr]
        rw [assocGet_assocSet_ne _ _ _ _ hc]
        simp

/-!  Key order and entry names of the accumulation map. -/

theorem keys_foldl_applyEvent : ∀ (E : List FoldEvent) (acc : List (String × AccContract)),
    (E.foldl applyEvent acc).map Prod.fst =
      E.foldl (fun ks e => insertKey ks e.key) (acc.map Prod.fst) := by
  intro E
  induction E with
  | nil => intro acc; rfl
  | cons e E ih =>
    intro acc
    rw [List.foldl_cons, ih, List.foldl_cons]
    congr 1
    unfold applyEvent
    exact keys_assocSet _ _ _

theorem mem_insertKey (ks : List String) (k x : String) :
    x ∈ insertKey ks k → x ∈ ks ∨ x = k := by
  unfold insertKey
  by_cases h : k ∈ ks
  · simp only [if_pos h]
    exact Or.inl
  · simp only [if_neg h]
    intro hx
    rcases List.mem_append.mp hx with h1 | h1
    · exact Or.inl h1
    · exact Or.inr (List.mem_singleton.mp h1)

theorem mem_foldl_insertKey : ∀ (E : List FoldEvent) (ks : List String) (x : String),
    x ∈ E.foldl (fun ks e => insertKey ks e.key) ks →
    x ∈ ks ∨ ∃ e ∈ E, e.key = x := by
  intro E
  induction E with
  | nil => intro ks x h; exact Or.inl h
  | cons e E ih =>
    intro ks x h
    rw [List.foldl_cons] at h
    rcases ih _ _ h with h1 | ⟨e1, he1, hk1⟩
    · rcases mem_insertKey _ _ _ h1 with h2 | h2
      · exact Or.inl h2
      · exact Or.inr ⟨e, List.mem_cons_self e E, h2.symm⟩
    · exact Or.inr ⟨e1, List.mem_cons_of_mem _ he1, hk1⟩

theorem name_inv : ∀ (E : List FoldEvent) (acc : List (String × AccContract)),
    (∀ kv ∈ acc, (kv.2 : AccContract).name = kv.1) →
    ∀ kv ∈ E.foldl applyEvent acc, kv.2.name = kv.1 := by
  intro E
  induction E with
  | nil => intro acc hinv kv hkv; exact hinv kv hkv
  | cons e E ih =>
    intro acc hinv kv hkv
    refine ih (applyEvent acc e) ?_ kv hkv
    intro kv1 hkv1
    unfold applyEvent at hkv1
    rcases mem_assocSet _ _ _ kv1 hkv1 with h1 | h1
    · exact hinv kv1 h1
    · subst h1
      show (applyAddr _ e).name = e.key
      cases hacc : assocGet acc e.key with
      | some entry =>
        have := hinv (e.key, entry) (assocGet_mem _ _ _ hacc)
        simp [hacc, applyAddr]
        exact this
      | none => simp [hacc, applyAddr]

theorem jsEntries_of_no_index {α : Type} (m : List (String × α))
    (h : ∀ kv ∈ m, isArrayIndexKey kv.1 = false) : jsEntries m = m := by
  unfold jsEntries
  have h1 : m.filter (fun kv => isArrayIndexKey kv.1) = [] :=
    List.filter_eq_nil_iff.mpr (fun kv hkv => by simp [h kv hkv])
  have h2 : m.filter (fun kv => !isArrayIndexKey kv.1) = m :=
    List.filter_eq_self.mpr (fun kv hkv => by simp [h kv hkv])
  rw [h1, h2]
  rfl

/-!  Totality of the fold given a directory whose selected files all parse. -/

theorem foldFiles_eq_none (config : HardhatDeployOptions) :
    ∀ (files : List (String × Option Export)) (acc : List (String × AccContract)),
      (∃ f ∈ files, f.2 = none) → foldFiles config files acc = none := by
  intro files
  induction files with
  | nil =>
    rintro acc ⟨f, hf, _⟩
    simp at hf
  | cons g rest ih =>
    rintro acc ⟨f, hf, hnone⟩
    obtain ⟨n, c⟩ := g
    cases c with
    | none => rfl
    | some dep =>
      rcases List.mem_cons.mp hf with h | h
      · subst h; simp at hnone
      · exact ih _ ⟨f, h, hnone⟩

theorem foldFiles_isSome (config : HardhatDeployOptions) :
    ∀ (files : List (String × Option Export)) (acc : List (String × AccContract)),
      (∀ f ∈ files, f.2 ≠ none) → (foldFiles config files acc).isSome = true := by
  intro files
  induction files with
  | nil => intro acc _; rfl
  | cons g rest ih =>
    intro acc h
    obtain ⟨n, c⟩ := g
    cases c with
    | none => exact absurd rfl (h (n, none) (List.mem_cons_self _ _))
    | some dep => exact ih _ (fun f hf => h f (List.mem_cons_of_mem _ hf))

/-- When no configured exclude pattern matches, the exclusion guard of
shouldInclude is false. -/
theorem excludes_guard_false (name : String) (config : HardhatDeployOptions)
    (hex : ∀ p ∈ config.excludes.getD [], p name = false) :
    (match config.excludes with
      | some excludes => excludes.any fun exclude => exclude name
      | none => false) = false := by
  cases hE : config.excludes with
  | none => rfl
  | some E =>
    show E.any (fun exclude => exclude name) = false
    refine List.any_eq_false.mpr ?_
    intro p hp
    have := hex p (by rw [hE]; simpa using hp)
    simp [this]

/-!  Claim theorems. -/

/-- Claim C1, refuting instance: the name Token matches no configured exclude
pattern (there is none) and the includes list is present but empty, yet
shouldInclude returns false, not true as the claim states. -/
theorem shouldInclude_empty_includes_refute :
    shouldInclude "Token" { directory := "deployments", includes := some [] } = false := rfl

/-- Claim C1 as amended: for a name matching no configured exclude pattern,
an absent includes list admits every name, but a present-and-empty includes
list matches nothing (the empty loop falls through to the exclusion line). -/
theorem shouldInclude_absent_vs_empty_includes (name : String)
    (config : HardhatDeployOptions)
    (hex : ∀ p ∈ config.excludes.getD [], p name = false) :
    (config.includes = none → shouldInclude name config = true) ∧
    (config.includes = some [] → shouldInclude name config = false) := by
  have hcond := excludes_guard_false name config hex
  constructor
  · intro hi
    simp [shouldInclude, hcond, hi]
  · intro hi
    simp [shouldInclude, hcond, hi]

/-- Claim C1 witness: the amended theorem applied at the name Token with an
option record carrying no excludes, and an absent resp. empty includes list. -/
theorem shouldInclude_absent_vs_empty_includes_app :
    shouldInclude "Token" { directory := "deployments" } = true ∧
    shouldInclude "Greeter" { directory := "deployments", includes := some [] } = false := by
  have h1 := shouldInclude_absent_vs_empty_includes "Token"
    { directory := "deployments" } (by simp)
  have h2 := shouldInclude_absent_vs_empty_includes "Greeter"
    { directory := "deployments", includes := some [] } (by simp)
  exact ⟨h1.1 rfl, h2.2 rfl⟩

/-- Claim C5: when some configured exclude pattern matches the name,
shouldInclude is false, whatever the includes list holds. -/
theorem shouldInclude_excludes_win (name : String) (config : HardhatDeployOptions)
    (E : List Pattern) (hE : config.excludes = some E)
    (p : Pattern) (hp : p ∈ E) (hmatch : p name = true) :
    shouldInclude name config = false := by
  have hcond : (match config.excludes with
      | some excludes => excludes.any fun exclude => exclude name
      | none => false) = true := by
    rw [hE]
    show E.any (fun exclude => exclude name) = true
    exact List.any_eq_true.mpr ⟨p, hp, hmatch⟩
  simp [shouldInclude, hcond]

/-- Claim C5 witness: a pattern matching the name Secret excludes it even
though the includes list also matches it. -/
theorem shouldInclude_excludes_win_app :
    shouldInclude "Secret"
      { directory := "deployments",
        includes := some [fun n => n == "Secret"],
        excludes := some [fun n => n == "Secret"] } = false :=
  shouldInclude_excludes_win "Secret" _ [fun n => n == "Secret"] rfl
    (fun n => n == "Secret") (List.mem_cons_self _ _) rfl

/-- Claim C6: with no exclude match and a configured non-empty includes list,
shouldInclude is true exactly when some include pattern matches the name. -/
theorem shouldInclude_includes_iff (name : String) (config : HardhatDeployOptions)
    (I : List Pattern) (hI : config.includes = some I) (hne : I ≠ [])
    (hex : ∀ p ∈ config.excludes.getD [], p name = false) :
    (shouldInclude name config = true ↔ ∃ p ∈ I, p name = true) := by
  have hcond := excludes_guard_false name config hex
  simp only [shouldInclude, hcond, hI, Bool.false_eq_true, if_false]
  exact List.any_eq_true

/-- Claim C6 witness: the equivalence applied at the name Token and the
one-pattern includes list that matches it. -/
theorem shouldInclude_includes_iff_app :
    shouldInclude "Token"
      { directory := "deployments", includes := some [fun n => n == "Token"] } = true := by
  have h := shouldInclude_includes_iff "Token"
    { directory := "deployments", includes := some [fun n => n == "Token"] }
    [fun n => n == "Token"] rfl (by simp) (by simp)
  exact h.mpr ⟨_, List.mem_cons_self _ _, rfl⟩

/-- Claim C9: when the includeNetworks and excludeNetworks lists are both
absent or empty, shouldIncludeFile accepts every file name. -/
theorem shouldIncludeFile_default_inclusive (f : String) (config : HardhatDeployOptions)
    (hi : config.includeNetworks.getD [] = [])
    (he : config.excludeNetworks.getD [] = []) :
    shouldIncludeFile f config = true := by
  simp [shouldIncludeFile, hi, he]

/-- Claim C9 witness: the default configuration accepts an arbitrary file. -/
theorem shouldIncludeFile_default_inclusive_app :
    shouldIncludeFile "anything.json" { directory := "deployments" } = true :=
  shouldIncludeFile_default_inclusive "anything.json" { directory := "deployments" } rfl rfl

/-- Claim C8, refuting instance: for the file name mainnet.txt the source
derives the network id mainnet.txt (path.basename only removes the fixed
suffix .json), not the extension-stripped mainnet the claim describes. -/
theorem network_id_extension_refute :
    pathBasename "mainnet.txt" ".json" ≠ stripExtension "mainnet.txt" := by decide

/-- Claim C8 as amended: the network identifier is the base name with a
trailing .json suffix removed (mainnet.json yields mainnet; other extensions
are kept, so mainnet.txt yields mainnet.txt), and the includeNetworks and
excludeNetworks membership tests are applied to that identifier. -/
theorem network_id_json_strip :
    pathBasename "mainnet.json" ".json" = "mainnet" ∧
    pathBasename "mainnet.txt" ".json" = "mainnet.txt" ∧
    ∀ (f : String) (config : HardhatDeployOptions),
      shouldIncludeFile f config =
        (((config.includeNetworks.getD []).isEmpty ||
            (config.includeNetworks.getD []).contains (pathBasename f ".json")) &&
          !((config.excludeNetworks.getD []).contains (pathBasename f ".json"))) := by
  refine ⟨by decide, by decide, ?_⟩
  intro f config
  simp only [shouldIncludeFile]
  cases hinc : config.includeNetworks.getD [] with
  | nil =>
    cases hexc : config.excludeNetworks.getD [] with
    | nil => rfl
    | cons b m =>
      cases hc : (b :: m).contains (pathBasename f ".json") <;> simp [hc]
  | cons a l =>
    cases hexc : config.excludeNetworks.getD [] with
    | nil =>
      cases hc : (a :: l).contains (pathBasename f ".json") <;> simp [hc]
    | cons b m =>
      cases hc1 : (a :: l).contains (pathBasename f ".json") <;>
        cases hc2 : (b :: m).contains (pathBasename f ".json") <;> simp [hc1, hc2]

/-- Claim C3: after the fold, an entry whose address map holds exactly one
distinct address value is collapsed to that scalar; an entry with two or more
distinct values keeps its chain-id-to-address map unchanged. -/
theorem simplify_address_collapse (c : AccContract) :
    (∀ a, dedupJs (c.addressMap.map Prod.snd) = [a] →
        (simplifyEntry c).address = AddressRep.scalar a) ∧
    (∀ a b l, dedupJs (c.addressMap.map Prod.snd) = a :: b :: l →
        (simplifyEntry c).address = AddressRep.map c.addressMap) := by
  constructor
  · intro a h
    simp [simplifyEntry, h]
  · intro a b l h
    simp [simplifyEntry, h]

/-- Claim C3 witness: the same address on chains 1 and 137 collapses to the
scalar; two different addresses keep the map. -/
theorem simplify_address_collapse_app :
    (simplifyEntry (AccContract.mk "Foo" "abiA"
        [(some 1, "0xAA"), (some 137, "0xAA")])).address =
      AddressRep.scalar "0xAA" ∧
    (simplifyEntry (AccContract.mk "Bar" "abiB"
        [(some 1, "0xAA"), (some 137, "0xBB")])).address =
      AddressRep.map [(some 1, "0xAA"), (some 137, "0xBB")] :=
  ⟨(simplify_address_collapse _).1 "0xAA" (by decide),
   (simplify_address_collapse _).2 "0xAA" "0xBB" [] (by decide)⟩

/-- Claim C10: the simplify step touches only the address field: the
registry is the per-entry simplification of the accumulated values, with the
same number of entries in the same order, and every name and ABI unchanged. -/
theorem simplify_frame (config : HardhatDeployOptions)
    (dir : List (String × Option Export)) (acc : List (String × AccContract))
    (h : foldDirectory config dir = some acc) :
    pluginContracts config dir = some ((jsVals acc).map simplifyEntry) ∧
    ((jsVals acc).map simplifyEntry).length = (jsVals acc).length ∧
    ((jsVals acc).map simplifyEntry).map (fun c => (c.name, c.abi)) =
      (jsVals acc).map (fun c : AccContract => (c.name, c.abi)) := by
  refine ⟨by simp [pluginContracts, h], by simp, ?_⟩
  rw [List.map_map]
  exact List.map_congr_left (fun c _ => rfl)

/-- Claim C10 witness: the frame property of the simplify step at a concrete
one-file directory. -/
theorem simplify_frame_app :
    pluginContracts { directory := "deployments" }
        [("1.json", some (Export.mk "1" "net"
          [("Foo", ContractExport.mk "0xAA" "abiA" none)]))] =
      some ((jsVals [("Foo", AccContract.mk "Foo" "abiA" [(some 1, "0xAA")])]).map
        simplifyEntry) ∧
    ((jsVals [("Foo", AccContract.mk "Foo" "abiA" [(some 1, "0xAA")])]).map
        simplifyEntry).length =
      (jsVals [("Foo", AccContract.mk "Foo" "abiA" [(some 1, "0xAA")])]).length ∧
    ((jsVals [("Foo", AccContract.mk "Foo" "abiA" [(some 1, "0xAA")])]).map
        simplifyEntry).map (fun c => (c.name, c.abi)) =
      (jsVals [("Foo", AccContract.mk "Foo" "abiA" [(some 1, "0xAA")])]).map
        (fun c : AccContract => (c.name, c.abi)) :=
  simplify_frame _ _ _ rfl

/-- Claim C2, refuting instance: a selected file whose chainId is not a
numeric string does not abort the operation; parseInt yields NaN (none) and
the run completes with a result. -/
theorem contracts_nonnumeric_chainId_succeeds :
    parseIntJs "not-a-number" = none ∧
    pluginContracts { directory := "deployments" }
      [("foo.json", some (Export.mk "not-a-number" "foo"
        [("Token", ContractExport.mk "0xAA" "abiT" none)]))] =
      some [ContractConfig.mk "Token" "abiT" (AddressRep.scalar "0xAA")] :=
  ⟨rfl, rfl⟩

/-- Claim C2 as amended: a selected file with malformed JSON makes the whole
contracts() run fail with no partial result, while a run whose selected
files all parse always produces a result, whatever their chainId strings
hold (a non-numeric chainId is folded under the NaN key, not an error). -/
theorem contracts_parse_failure_fatal (config : HardhatDeployOptions)
    (dir : List (String × Option Export)) :
    ((∃ f ∈ selectFiles config dir, f.2 = none) → pluginContracts config dir = none) ∧
    ((∀ f ∈ selectFiles config dir, f.2 ≠ none) →
      (pluginContracts config dir).isSome = true) := by
  constructor
  · intro hex
    have h := foldFiles_eq_none config (selectFiles config dir) [] hex
    simp [pluginContracts, foldDirectory, h]
  · intro hall
    have h := foldFiles_isSome config (selectFiles config dir) [] hall
    simpa [pluginContracts, foldDirectory] using h

/-- Claim C2 witness: a directory with one unparseable file fails wholly; a
directory whose single file has the chainId string not-a-number succeeds. -/
theorem contracts_parse_failure_fatal_app :
    pluginContracts { directory := "deployments" } [("bad.json", none)] = none ∧
    (pluginContracts { directory := "deployments" }
      [("foo.json", some (Export.mk "not-a-number" "foo"
        [("Token", ContractExport.mk "0xAA" "abiT" none)]))]).isSome = true := by
  constructor
  · exact (contracts_parse_failure_fatal _ _).1 ⟨("bad.json", none), by decide, rfl⟩
  · exact (contracts_parse_failure_fatal _ _).2 (by decide)

/-- Claim C4: for every key of the accumulation map, the display name of the
entry is the key, its ABI is the ABI of the first record folded in for that
key, and the stored address for each chain id comes from the last folded
record for that key and chain id (later occurrences overwrite earlier ones,
with no error). -/
theorem fold_last_write_first_abi (config : HardhatDeployOptions)
    (dir : List (String × Option Export)) (acc : List (String × AccContract))
    (h : foldDirectory config dir = some acc) (k : String) (entry : AccContract)
    (hget : assocGet acc k = some entry) :
    entry.name = k ∧
    ((allEvents config dir).filter (fun e => e.key == k)).head?.map FoldEvent.abi =
      some entry.abi ∧
    ∀ c : Option Int, assocGet entry.addressMap c =
      (lastWith (fun e => e.chainId == c)
        ((allEvents config dir).filter (fun e => e.key == k))).map FoldEvent.address := by
  have hacc : acc = (allEvents config dir).foldl applyEvent [] :=
    foldFiles_eq_some config (selectFiles config dir) [] acc h
  rw [hacc, assocGet_eventsFold] at hget
  unfold accAfter at hget
  cases hf : (allEvents config dir).filter (fun e => e.key == k) with
  | nil =>
    rw [hf] at hget
    exact Option.noConfusion (show (none : Option AccContract) = some entry from hget)
  | cons e ek =>
    rw [hf] at hget
    have he : entry =
        ek.foldl applyAddr (applyAddr { name := k, abi := e.abi, addressMap := [] } e) :=
      (Option.some.inj hget).symm
    subst he
    refine ⟨?_, ?_, ?_⟩
    · rw [foldl_applyAddr_name]
      rfl
    · rw [foldl_applyAddr_abi]
      rfl
    · intro c
      rw [assocGet_foldl_applyAddr]
      cases hl : lastWith (fun x => x.chainId == c) ek with
      | some b => simp [lastWith, hl]
      | none =>
        by_cases hc : e.chainId = c
        · have hbeq : (e.chainId == c) = true := by simp [hc]
          simp only [lastWith, hl, hbeq, if_pos]
          show assocGet [(e.chainId, e.address)] c = some e.address
          simp [assocGet, hc]
        · have hbeq : (e.chainId == c) = false := by simp [hc]
          simp only [lastWith, hl, hbeq, if_neg, Bool.false_eq_true, Option.map_none]
          show assocGet [(e.chainId, e.address)] c = none
          simp [assocGet, hc]

/-- Claim C4 witness: two files for the same chain id 1 both carrying Foo;
the stored address is the one of the later file, the ABI and name the ones
of the first. -/
theorem fold_last_write_first_abi_app :
    (AccContract.mk "Foo" "abiA" [(some 1, "0xBB")]).name = "Foo" ∧
    ((allEvents { directory := "deployments" }
        [("a.json", some (Export.mk "1" "x" [("Foo", ContractExport.mk "0xAA" "abiA" none)])),
         ("b.json", some (Export.mk "1" "y" [("Foo", ContractExport.mk "0xBB" "abiB" none)]))]).filter
      (fun e => e.key == "Foo")).head?.map FoldEvent.abi =
      some (AccContract.mk "Foo" "abiA" [(some 1, "0xBB")]).abi ∧
    assocGet (AccContract.mk "Foo" "abiA" [(some 1, "0xBB")]).addressMap (some 1) =
      (lastWith (fun e => e.chainId == some 1)
        ((allEvents { directory := "deployments" }
          [("a.json", some (Export.mk "1" "x" [("Foo", ContractExport.mk "0xAA" "abiA" none)])),
           ("b.json", some (Export.mk "1" "y" [("Foo", ContractExport.mk "0xBB" "abiB" none)]))]).filter
        (fun e => e.key == "Foo"))).map FoldEvent.address := by
  have h := fold_last_write_first_abi { directory := "deployments" }
    [("a.json", some (Export.mk "1" "x" [("Foo", ContractExport.mk "0xAA" "abiA" none)])),
     ("b.json", some (Export.mk "1" "y" [("Foo", ContractExport.mk "0xBB" "abiB" none)]))]
    [("Foo", AccContract.mk "Foo" "abiA" [(some 1, "0xBB")])] rfl
    "Foo" (AccContract.mk "Foo" "abiA" [(some 1, "0xBB")]) rfl
  exact ⟨h.1, h.2.1, h.2.2 (some 1)⟩

/-- Claim C7, refuting instance: the name Foo is encountered before the name
5 while scanning, but the returned registry lists 5 first, because
JavaScript object enumeration puts array-index keys first in numeric order;
the output order is not the first-encounter order. -/
theorem registry_order_numeric_key_refute :
    (Option.map (List.map ContractConfig.name) (pluginContracts { directory := "deployments" }
      [("1.json", some (Export.mk "1" "a" [("Foo", ContractExport.mk "0xAA" "abiA" none)])),
       ("2.json", some (Export.mk "2" "b" [("5", ContractExport.mk "0xBB" "abiB" none)]))])) =
      some ["5", "Foo"] ∧
    firstEncounter (allEvents { directory := "deployments" }
      [("1.json", some (Export.mk "1" "a" [("Foo", ContractExport.mk "0xAA" "abiA" none)])),
       ("2.json", some (Export.mk "2" "b" [("5", ContractExport.mk "0xBB" "abiB" none)]))]) =
      ["Foo", "5"] :=
  ⟨rfl, rfl⟩

/-- Claim C7 as amended: provided no transformed contract name is an
ECMAScript array-index string (canonical decimal numeral below 2 to the 32nd
minus one), the registry order is exactly the order in which transformed
names were first encountered while scanning the selected files in
directory-listing order; array-index names would instead be enumerated
first, in ascending numeric order. -/
theorem registry_order_first_encounter (config : HardhatDeployOptions)
    (dir : List (String × Option Export)) (reg : List ContractConfig)
    (h : pluginContracts config dir = some reg)
    (hk : ∀ e ∈ allEvents config dir, isArrayIndexKey e.key = false) :
    reg.map ContractConfig.name = firstEncounter (allEvents config dir) := by
  cases hfd : foldDirectory config dir with
  | none => simp [pluginContracts, hfd] at h
  | some acc =>
    have hreg : reg = (jsVals acc).map simplifyEntry := by
      have h2 : some ((jsVals acc).map simplifyEntry) = some reg := by
        rw [← h]
        simp [pluginContracts, hfd]
      exact (Option.some.inj h2).symm
    have hacc : acc = (allEvents config dir).foldl applyEvent [] :=
      foldFiles_eq_some config (selectFiles config dir) [] acc hfd
    have hkeys : acc.map Prod.fst = firstEncounter (allEvents config dir) := by
      rw [hacc, keys_foldl_applyEvent]
      rfl
    have hnoidx : ∀ kv ∈ acc, isArrayIndexKey kv.1 = false := by
      intro kv hkv
      have hm : kv.1 ∈ acc.map Prod.fst := List.mem_map_of_mem _ hkv
      rw [hkeys] at hm
      rcases mem_foldl_insertKey _ _ _ hm with h0 | ⟨e, he, hek⟩
      · simp at h0
      · rw [← hek]
        exact hk e he
    have hnames : ∀ kv ∈ acc, (kv.2 : AccContract).name = kv.1 := by
      intro kv hkv
      exact name_inv _ [] (by simp) kv (hacc ▸ hkv)
    have hjs : jsVals acc = acc.map Prod.snd := by
      unfold jsVals
      rw [jsEntries_of_no_index acc hnoidx]
    rw [hreg, hjs, ← hkeys]
    simp only [List.map_map]
    exact List.map_congr_left (fun kv hkv => hnames kv hkv)

/-- Claim C7 witness: with two non-numeric names across one file, the
registry order is the first-encounter order. -/
theorem registry_order_first_encounter_app :
    ([ContractConfig.mk "Token" "abiT" (AddressRep.scalar "0xAA"),
      ContractConfig.mk "Greeter" "abiG" (AddressRep.scalar "0xBB")]).map
        ContractConfig.name =
      firstEncounter (allEvents { directory := "deployments" }
        [("31337.json", some (Export.mk "31337" "hardhat"
          [("Token", ContractExport.mk "0xAA" "abiT" none),
           ("Greeter", ContractExport.mk "0xBB" "abiG" none)]))]) :=
  registry_order_first_encounter { directory := "deployments" }
    [("31337.json", some (Export.mk "31337" "hardhat"
      [("Token", ContractExport.mk "0xAA" "abiT" none),
       ("Greeter", ContractExport.mk "0xBB" "abiG" none)]))]
    [ContractConfig.mk "Token" "abiT" (AddressRep.scalar "0xAA"),
     ContractConfig.mk "Greeter" "abiG" (AddressRep.scalar "0xBB")]
    rfl (by decide)

end HardhatDeploy
